import Mathlib

/-!
Verification of the text-intelligence analysis engine (`server.py`).

The engine's pure core is shallowly embedded here over `List Char`:

* `split_into_sentences`, `is_filler_sentence`, `calculate_relevance_score`
  and `trim_context` model the context-trimming pipeline;
* a small backtracking regular-expression engine (`RE`, `matchEnds`,
  `finditer`) models the `re.finditer` calls used by `extract_decisions`,
  `extract_action_items` and `extract_questions`.

Python `float` scores are modelled as exact rationals (`ℚ`): the score is
`overlap / len(goal_words)` on small integers, and every property stated
here (ordering, positivity, bounds) is preserved by the monotone rounding
of IEEE division.  Python's stable `list.sort` is modelled by a stable
insertion sort (`pySortDesc`): a stable sort's output is uniquely
determined by the key order together with stability, so any stable
implementation is extensionally the same function.
-/

/-- Whitespace as recognised by Python's `str.split()` / `str.strip()` and
by the regex class `\s` (ASCII part; the engine's inputs are modelled over
these characters). -/
def pyWs (c : Char) : Bool :=
  c == ' ' || c == '\t' || c == '\n' || c == '\r' || c == '\x0b' || c == '\x0c'

/-- `str.strip()`: drop whitespace from both ends. -/
def pyStrip (l : List Char) : List Char :=
  ((l.dropWhile pyWs).reverse.dropWhile pyWs).reverse

/-- The regex class `[^.!?\n]` used by the question pattern and by the
sentence-terminator patterns. -/
def notTermB (c : Char) : Bool :=
  !(c == '.' || c == '!' || c == '?' || c == '\n')

/-- The regex class `[.!?]` (sentence terminators). -/
def isTerm3 (c : Char) : Bool :=
  c == '.' || c == '!' || c == '?'

/-- The regex class `[^.\n]` used by the action-item patterns. -/
def notDotNl (c : Char) : Bool :=
  !(c == '.' || c == '\n')

/-! ### A small backtracking regex engine

Only the constructs appearing in `server.py`'s patterns are embedded:
literals (matched case-insensitively, modelling `re.IGNORECASE`),
character classes, concatenation, alternation, greedy option `?`, and
greedy `*` / `+` over character classes, plus the multi-line `^` anchor.
`matchEnds` returns the candidate end positions of a match starting at a
given position, in Python's backtracking preference order (greedy
quantifiers prefer longer matches, alternations prefer the left branch);
`re` semantics take the first one. -/

inductive RE where
  | lit (s : List Char)
  | cls (p : Char → Bool)
  | cat (a b : RE)
  | alt (a b : RE)
  | opt (a : RE)
  | starCls (p : Char → Bool)
  | plusCls (p : Char → Bool)
  | bol

/-- Case-insensitive literal match of `s` at position `i` of `t`
(`re.IGNORECASE` is passed wherever literals occur). -/
def litMatch : List Char → List Char → Nat → Bool
  | [], _, _ => true
  | c :: cs, t, i =>
    match t[i]? with
    | some d => (d.toLower == c.toLower) && litMatch cs t (i + 1)
    | none => false

/-- Length of the maximal run of characters satisfying `p` starting at
position `i` of `t`. -/
def runLen (p : Char → Bool) (t : List Char) (i : Nat) : Nat :=
  ((t.drop i).takeWhile p).length

/-- Candidate end positions, in backtracking preference order, of a match
of `r` starting at position `i` of `t`. -/
def matchEnds : RE → List Char → Nat → List Nat
  | .lit s, t, i => if litMatch s t i then [i + s.length] else []
  | .cls p, t, i =>
    match t[i]? with
    | some c => if p c then [i + 1] else []
    | none => []
  | .cat a b, t, i => (matchEnds a t i).flatMap (fun j => matchEnds b t j)
  | .alt a b, t, i => matchEnds a t i ++ matchEnds b t i
  | .opt a, t, i => matchEnds a t i ++ [i]
  | .starCls p, t, i => (List.range (runLen p t i + 1)).reverse.map (fun k => i + k)
  | .plusCls p, t, i => (List.range (runLen p t i)).reverse.map (fun k => i + k + 1)
  | .bol, t, i => if i = 0 ∨ t[i - 1]? = some '\n' then [i] else []

/-- One scan step of `re.finditer`: try each start position from left to
right, emit the first (preferred) match at a successful position, and
resume after it (advancing by one character after an empty match). -/
def finditerAux (r : RE) (t : List Char) : Nat → Nat → List (Nat × Nat)
  | _, 0 => []
  | i, fuel + 1 =>
    if t.length < i then []
    else
      match matchEnds r t i with
      | [] => finditerAux r t (i + 1) fuel
      | e :: _ =>
        if e ≤ i then (i, e) :: finditerAux r t (i + 1) fuel
        else (i, e) :: finditerAux r t e fuel

/-- All non-overlapping matches of `r` in `t` (as half-open index spans),
left to right, as produced by `re.finditer`. -/
def finditer (r : RE) (t : List Char) : List (Nat × Nat) :=
  finditerAux r t 0 (t.length + 1)

/-- The substring of `t` denoted by a match span. -/
def sliceL (t : List Char) (m : Nat × Nat) : List Char :=
  (t.drop m.1).take (m.2 - m.1)

def strL (s : String) : List Char := s.data

/-! ### The pattern library (`decision_patterns`, `action_patterns`,
`question_pattern` from `server.py`), compiled to `RE` -/

/-- `(?:we|they|the team|I)?\s*(?:decided|chose|selected|agreed|concluded)\s+(?:to\s+)?([^.!?\n]+[.!?])` -/
def decisionPattern1 : RE :=
  .cat (.opt (.alt (.lit (strL "we")) (.alt (.lit (strL "they"))
        (.alt (.lit (strL "the team")) (.lit (strL "i"))))))
  (.cat (.starCls pyWs)
  (.cat (.alt (.lit (strL "decided")) (.alt (.lit (strL "chose"))
        (.alt (.lit (strL "selected")) (.alt (.lit (strL "agreed")) (.lit (strL "concluded"))))))
  (.cat (.plusCls pyWs)
  (.cat (.opt (.cat (.lit (strL "to")) (.plusCls pyWs)))
  (.cat (.plusCls notTermB) (.cls isTerm3))))))

/-- `(?:decision|choice):\s*([^.!?\n]+[.!?])` -/
def decisionPattern2 : RE :=
  .cat (.alt (.lit (strL "decision")) (.lit (strL "choice")))
  (.cat (.lit (strL ":"))
  (.cat (.starCls pyWs)
  (.cat (.plusCls notTermB) (.cls isTerm3))))

/-- `(?:will|shall)\s+(?:go with|use|implement|adopt)\s+([^.!?\n]+[.!?])` -/
def decisionPattern3 : RE :=
  .cat (.alt (.lit (strL "will")) (.lit (strL "shall")))
  (.cat (.plusCls pyWs)
  (.cat (.alt (.lit (strL "go with")) (.alt (.lit (strL "use"))
        (.alt (.lit (strL "implement")) (.lit (strL "adopt")))))
  (.cat (.plusCls pyWs)
  (.cat (.plusCls notTermB) (.cls isTerm3)))))

def decisionPatterns : List RE :=
  [decisionPattern1, decisionPattern2, decisionPattern3]

/-- `(?:TODO|Action|Task|Action item):\s*([^.\n]+\.?)` -/
def actionPattern1 : RE :=
  .cat (.alt (.lit (strL "todo")) (.alt (.lit (strL "action"))
        (.alt (.lit (strL "task")) (.lit (strL "action item")))))
  (.cat (.lit (strL ":"))
  (.cat (.starCls pyWs)
  (.cat (.plusCls notDotNl) (.opt (.cls (fun c => c == '.'))))))

/-- `(?:will|shall|should|must|need to)\s+([^.!?\n]+[.!?])` -/
def actionPattern2 : RE :=
  .cat (.alt (.lit (strL "will")) (.alt (.lit (strL "shall"))
        (.alt (.lit (strL "should")) (.alt (.lit (strL "must")) (.lit (strL "need to"))))))
  (.cat (.plusCls pyWs)
  (.cat (.plusCls notTermB) (.cls isTerm3)))

/-- `\[(?:TODO|ACTION)\]\s*([^.\n]+\.?)` -/
def actionPattern3 : RE :=
  .cat (.lit (strL "["))
  (.cat (.alt (.lit (strL "todo")) (.lit (strL "action")))
  (.cat (.lit (strL "]"))
  (.cat (.starCls pyWs)
  (.cat (.plusCls notDotNl) (.opt (.cls (fun c => c == '.')))))))

/-- `(?:^|\n)\s*[-*]\s*([^.\n]+(?:will|should|needs? to|must)[^.\n]+\.?)` -/
def actionPattern4 : RE :=
  .cat (.alt .bol (.lit (strL "\n")))
  (.cat (.starCls pyWs)
  (.cat (.cls (fun c => c == '-' || c == '*'))
  (.cat (.starCls pyWs)
  (.cat (.plusCls notDotNl)
  (.cat (.alt (.lit (strL "will")) (.alt (.lit (strL "should"))
        (.alt (.cat (.lit (strL "need")) (.cat (.opt (.cls (fun c => c == 's'))) (.lit (strL " to"))))
        (.lit (strL "must")))))
  (.cat (.plusCls notDotNl) (.opt (.cls (fun c => c == '.')))))))))

def actionPatterns : List RE :=
  [actionPattern1, actionPattern2, actionPattern3, actionPattern4]

/-- `[^.!?\n]*\?` -/
def questionPattern : RE :=
  .cat (.starCls notTermB) (.cls (fun c => c == '?'))

/-! ### The outcome extractors -/

/-- `extract_decisions` / `extract_action_items` share one loop body:
`x = match.group(0).strip(); if x and x not in acc: acc.append(x)`. -/
def addOutcome (acc : List (List Char)) (d : List Char) : List (List Char) :=
  if d ≠ [] ∧ d ∉ acc then acc ++ [d] else acc

/-- `extract_decisions`: iterate the decision patterns in order; for each,
append every stripped whole-match that is non-empty and not yet present. -/
def extract_decisions (t : List Char) : List (List Char) :=
  decisionPatterns.foldl
    (fun acc pat => ((finditer pat t).map (fun m => pyStrip (sliceL t m))).foldl addOutcome acc)
    []

/-- `extract_action_items`: same loop over the action patterns. -/
def extract_action_items (t : List Char) : List (List Char) :=
  actionPatterns.foldl
    (fun acc pat => ((finditer pat t).map (fun m => pyStrip (sliceL t m))).foldl addOutcome acc)
    []

/-- `re.sub(r'^\s*[-*â€¢]\s*', '', question)`: strip one leading
list-marker character (with surrounding whitespace) from the front.  The
character class in the source is the UTF-8 mojibake `â€¢` of a bullet, so
the stripped marker characters are `-`, `*`, `â`, `€`, `¢`. -/
def stripBullet (l : List Char) : List Char :=
  match l.dropWhile pyWs with
  | c :: rest =>
    if c == '-' || c == '*' || c == 'â' || c == '€' || c == '¢' then rest.dropWhile pyWs
    else l
  | [] => l

/-- `extract_questions`: for each match of the question pattern, strip it;
if non-empty and longer than 5 characters, strip a leading bullet and
append when not yet present. -/
def extract_questions (t : List Char) : List (List Char) :=
  ((finditer questionPattern t).map (fun m => pyStrip (sliceL t m))).foldl
    (fun acc question =>
      if question ≠ [] ∧ 5 < question.length then
        let q := stripBullet question
        if q ∈ acc then acc else acc ++ [q]
      else acc)
    []

/-- The result shape of `extract_outcomes`. -/
structure OutcomeSet where
  decisions : List (List Char)
  action_items : List (List Char)
  open_questions : List (List Char)
deriving DecidableEq

/-- `extract_outcomes`: empty text short-circuits to three empty lists. -/
def extract_outcomes (text : List Char) : OutcomeSet :=
  if text = [] then ⟨[], [], []⟩
  else ⟨extract_decisions text, extract_action_items text, extract_questions text⟩

/-! ### The context trimmer -/

/-- Worker for `str.split()` (split on whitespace runs, dropping empty
fragments); `cur` holds the current word reversed. -/
def pySplitAux : List Char → List Char → List (List Char)
  | [], cur => if cur = [] then [] else [cur.reverse]
  | c :: rest, cur =>
    if pyWs c then
      if cur = [] then pySplitAux rest [] else cur.reverse :: pySplitAux rest []
    else pySplitAux rest (c :: cur)

/-- Python `str.split()` with no separator argument. -/
def pySplitWords (l : List Char) : List (List Char) := pySplitAux l []

/-- Python `str.lower()` (ASCII model). -/
def lowerL (l : List Char) : List Char := l.map Char.toLower

/-- `calculate_relevance_score`: tokenise both strings by lowercasing and
whitespace-splitting, form the two token sets (`List.dedup` models the
Python `set`: only membership and cardinality are used), and return
`|goal ∩ chunk| / |goal|`, or `0.0` for an empty goal set.  The quotient
is built with `mkRat`, which equals the quotient
`(overlap : ℚ) / (length : ℚ)` (see the score theorem below). -/
def calculate_relevance_score (chunk goal : List Char) : ℚ :=
  let goal_words := (pySplitWords (lowerL goal)).dedup
  let chunk_words := (pySplitWords (lowerL chunk)).dedup
  let overlap := (goal_words.filter (fun w => decide (w ∈ chunk_words))).length
  if goal_words = [] then 0 else mkRat (overlap : Int) goal_words.length

/-- `p.isPrefixOf`-style check: does the second list start with the first? -/
def listStartsWith : List Char → List Char → Bool
  | [], _ => true
  | _ :: _, [] => false
  | p :: ps, c :: cs => p == c && listStartsWith ps cs

/-- The filler lead-ins.  Each source pattern `^(?:a|b|...)` applied with
`re.match` to the lowercased stripped sentence holds exactly when one of
its literal alternatives is a prefix; the five patterns are flattened
into one list of alternatives here. -/
def fillerLeadIns : List (List Char) :=
  [strL "hi", strL "hello", strL "hey", strL "dear", strL "greetings",
   strL "thanks", strL "thank you", strL "cheers",
   strL "best", strL "regards", strL "sincerely",
   strL "hope this helps", strL "let me know",
   strL "i think", strL "i feel", strL "i believe", strL "in my opinion"]

/-- `is_filler_sentence`: lowercase, strip, and test each anchored filler
pattern in turn. -/
def is_filler_sentence (sentence : List Char) : Bool :=
  fillerLeadIns.any (fun p => listStartsWith p (pyStrip (lowerL sentence)))

/-- Is the previous character (if any) a sentence terminator?  Used for
the lookbehind `(?<=[.!?])` of the sentence splitter. -/
def isTermOptB : Option Char → Bool
  | some c => isTerm3 c
  | none => false

/-- Worker for `re.split(r'(?<=[.!?])\s+', text)`: a separator is a
maximal whitespace run whose preceding character is `.`, `!` or `?`.
`inSep` records whether the scan is inside such a run, `prev` is the
previously scanned character, and `cur` is the current fragment reversed;
a fragment is emitted at each separator and at the end of the text. -/
def sentSplitAux : Bool → Option Char → List Char → List Char → List (List Char)
  | _, _, [], cur => [cur.reverse]
  | true, _, c :: rest, cur =>
    if pyWs c then sentSplitAux true none rest cur
    else sentSplitAux false (some c) rest (c :: cur)
  | false, prev, c :: rest, cur =>
    if pyWs c && isTermOptB prev then cur.reverse :: sentSplitAux true none rest []
    else sentSplitAux false (some c) rest (c :: cur)

/-- `split_into_sentences`: regex-split, then strip each fragment and drop
the empty ones. -/
def split_into_sentences (text : List Char) : List (List Char) :=
  ((sentSplitAux false none text []).map pyStrip).filter (fun s => decide (s ≠ []))

/-- Stable insertion into a descending-by-score list: the new element goes
in front of the first element whose score is not larger (so it precedes
later equal-score elements and follows earlier ones). -/
def insertDesc (x : List Char × ℚ) : List (List Char × ℚ) → List (List Char × ℚ)
  | [] => [x]
  | y :: ys => if y.2 ≤ x.2 then x :: y :: ys else y :: insertDesc x ys

/-- `list.sort(key=lambda x: x[1], reverse=True)`: a stable sort by
descending score (stable sorts agree extensionally, see the header). -/
def pySortDesc : List (List Char × ℚ) → List (List Char × ℚ)
  | [] => []
  | x :: xs => insertDesc x (pySortDesc xs)

/-- The Python slice `l[:n]` for an `int` bound `n`: a negative bound
counts from the end (`max 0 (len + n)` elements are kept). -/
def pySliceTo (n : Int) (l : List (List Char × ℚ)) : List (List Char × ℚ) :=
  l.take (if 0 ≤ n then n.toNat else ((l.length : Int) + n).toNat)

/-- A tool-call argument value, as delivered by the JSON request layer. -/
inductive ArgVal where
  | vint (n : Int)
  | vfloat (q : ℚ)
  | vstr (s : List Char)
  | vnone
deriving DecidableEq

/-- Exceptions raised by the modelled code (messages omitted). -/
inductive PyError where
  | valueError
  | typeError
deriving DecidableEq

instance {ε α : Type} [DecidableEq ε] [DecidableEq α] : DecidableEq (Except ε α) :=
  fun a b =>
    match a, b with
    | .ok x, .ok y => decidable_of_iff (x = y) (by simp)
    | .error x, .error y => decidable_of_iff (x = y) (by simp)
    | .ok _, .error _ => isFalse (by simp)
    | .error _, .ok _ => isFalse (by simp)

/-- Decimal digits with value accumulation; `none` on empty or non-digit
input. -/
def parseDigits : List Char → Nat → Option Nat
  | [], _ => none
  | [c], acc => if c.isDigit then some (acc * 10 + (c.toNat - 48)) else none
  | c :: rest, acc =>
    if c.isDigit then parseDigits rest (acc * 10 + (c.toNat - 48)) else none

/-- Python `int(string)`: strip whitespace, optional sign, then a decimal
numeral (digit-group underscores are not modelled). -/
def parsePyIntLit (s : List Char) : Option Int :=
  match pyStrip s with
  | '+' :: rest => (parseDigits rest 0).map (fun n => (n : Int))
  | '-' :: rest => (parseDigits rest 0).map (fun n => -(n : Int))
  | rest => (parseDigits rest 0).map (fun n => (n : Int))

/-- Python `int(x)` on an argument value: ints pass through, floats are
truncated toward zero, numeric strings are parsed (else `ValueError`),
and `None` raises `TypeError`. -/
def pyInt : ArgVal → Except PyError Int
  | .vint n => .ok n
  | .vfloat q => .ok (Int.tdiv q.num (q.den : Int))
  | .vstr s =>
    match parsePyIntLit s with
    | some n => .ok n
    | none => .error .valueError
  | .vnone => .error .typeError

/-- The arguments of a `trim_context` call; `maxChunks = none` models an
absent `max_chunks` key (so `arguments.get` returns the default `5`). -/
structure TrimArgs where
  text : List Char
  goal : List Char
  maxChunks : Option ArgVal

/-- The scored non-filler sentences, in original text order: filter out
filler sentences, score the rest against the goal, and keep the pairs
with strictly positive score. -/
def chunksWithScores (text goal : List Char) : List (List Char × ℚ) :=
  (((split_into_sentences text).filter (fun s => !is_filler_sentence s)).map
      (fun s => (s, calculate_relevance_score s goal))).filter
    (fun c => decide (0 < c.2))

/-- `trim_context`: coerce `max_chunks` (raising on failure), return an
empty result for empty text or goal, otherwise sort the scored chunks by
descending relevance and truncate with the Python slice `[:max_chunks]`.
Each selected chunk is returned with its score; the source additionally
formats the score into a reason string, a presentation step that is a
function of the score and is not modelled. -/
def trim_context (args : TrimArgs) : Except PyError (List (List Char × ℚ)) :=
  match pyInt (args.maxChunks.getD (.vint 5)) with
  | .error e => .error e
  | .ok max_chunks =>
    if args.text = [] ∨ args.goal = [] then .ok []
    else .ok (pySliceTo max_chunks (pySortDesc (chunksWithScores args.text args.goal)))

/-! ### Order-preserving deduplication

The extractor loops append an element only when it is not already
present.  `firstDedup` is the standalone form of that process (an
insertion-ordered set union); the bridging lemmas below rewrite each
extractor into `firstDedup` of its rule-major match list. -/

/-- One deduplicating append: keep `acc` if `x` is present, else append. -/
def dedupStep {α : Type} [DecidableEq α] (acc : List α) (x : α) : List α :=
  if x ∈ acc then acc else acc ++ [x]

/-- Deduplicate keeping the first occurrence of each element. -/
def firstDedup {α : Type} [DecidableEq α] (l : List α) : List α :=
  l.foldl dedupStep []

/-- All stripped whole-match strings of the given patterns, in rule-major
order: patterns in listed order and, within each pattern, matches in text
order, empty strings dropped. -/
def ruleMajorMatches (pats : List RE) (t : List Char) : List (List Char) :=
  pats.flatMap
    (fun p => ((finditer p t).map (fun m => pyStrip (sliceL t m))).filter (fun d => decide (d ≠ [])))

theorem foldl_dedupStep_nodup {α : Type} [DecidableEq α] :
    ∀ (l acc : List α), acc.Nodup → (l.foldl dedupStep acc).Nodup := by
  intro l
  induction l with
  | nil => intro acc h; simpa using h
  | cons x xs ih =>
    intro acc h
    simp only [List.foldl_cons]
    apply ih
    by_cases hx : x ∈ acc
    · simpa [dedupStep, hx] using h
    · simp only [dedupStep, hx, if_false]
      simpa [List.nodup_append, hx] using h

theorem firstDedup_nodup {α : Type} [DecidableEq α] (l : List α) :
    (firstDedup l).Nodup :=
  foldl_dedupStep_nodup l [] List.nodup_nil

theorem foldl_ext' {α β : Type} {f g : β → α → β} (h : ∀ a x, f a x = g a x) :
    ∀ (l : List α) (acc : β), l.foldl f acc = l.foldl g acc := by
  intro l
  induction l with
  | nil => intro acc; rfl
  | cons x xs ih => intro acc; simp only [List.foldl_cons, h, ih]

theorem foldl_flatMap {α β γ : Type} (f : α → List β) (g : γ → β → γ) :
    ∀ (l : List α) (init : γ),
      (l.flatMap f).foldl g init = l.foldl (fun acc x => (f x).foldl g acc) init := by
  intro l
  induction l with
  | nil => intro init; rfl
  | cons x xs ih => intro init; simp [List.flatMap_cons, List.foldl_append, ih]

theorem foldl_cond_map {α : Type} [DecidableEq α] (cond : α → Prop) [DecidablePred cond]
    (g : α → α) :
    ∀ (xs acc : List α),
      xs.foldl (fun a x => if cond x then dedupStep a (g x) else a) acc
        = ((xs.filter (fun x => decide (cond x))).map g).foldl dedupStep acc := by
  intro xs
  induction xs with
  | nil => intro acc; rfl
  | cons x xs ih =>
    intro acc
    by_cases hx : cond x
    · simp [List.foldl_cons, hx, ih]
    · simp [List.foldl_cons, hx, ih]

theorem foldl_cond {α : Type} [DecidableEq α] (cond : α → Prop) [DecidablePred cond] :
    ∀ (xs acc : List α),
      xs.foldl (fun a x => if cond x then dedupStep a x else a) acc
        = (xs.filter (fun x => decide (cond x))).foldl dedupStep acc := by
  intro xs
  induction xs with
  | nil => intro acc; rfl
  | cons x xs ih =>
    intro acc
    by_cases hx : cond x
    · simp [List.foldl_cons, hx, ih]
    · simp [List.foldl_cons, hx, ih]

theorem addOutcome_eq_dedup (acc : List (List Char)) (x : List Char) :
    addOutcome acc x = if x ≠ [] then dedupStep acc x else acc := by
  by_cases h1 : x = [] <;> by_cases h2 : x ∈ acc <;>
    simp [addOutcome, dedupStep, h1, h2]

/-- `extract_decisions` as an insertion-ordered union of the rule-major
match list of the decision patterns. -/
theorem extract_decisions_eq (t : List Char) :
    extract_decisions t = firstDedup (ruleMajorMatches decisionPatterns t) := by
  unfold extract_decisions firstDedup ruleMajorMatches
  rw [foldl_flatMap]
  apply foldl_ext'
  intro acc pat
  rw [foldl_ext' addOutcome_eq_dedup]
  exact foldl_cond (fun x : List Char => x ≠ []) _ acc

/-- `extract_action_items` as an insertion-ordered union of the rule-major
match list of the action patterns. -/
theorem extract_action_items_eq (t : List Char) :
    extract_action_items t = firstDedup (ruleMajorMatches actionPatterns t) := by
  unfold extract_action_items firstDedup ruleMajorMatches
  rw [foldl_flatMap]
  apply foldl_ext'
  intro acc pat
  rw [foldl_ext' addOutcome_eq_dedup]
  exact foldl_cond (fun x : List Char => x ≠ []) _ acc

/-- `extract_questions` as an insertion-ordered union of the bullet-stripped
long-enough match strings of the question pattern. -/
theorem extract_questions_eq (t : List Char) :
    extract_questions t
      = firstDedup
          ((((finditer questionPattern t).map (fun m => pyStrip (sliceL t m))).filter
              (fun q => decide (q ≠ [] ∧ 5 < q.length))).map stripBullet) := by
  unfold extract_questions firstDedup
  rw [← foldl_cond_map (fun q : List Char => q ≠ [] ∧ 5 < q.length) stripBullet]
  apply foldl_ext'
  intro a x
  by_cases hx : x ≠ [] ∧ 5 < x.length <;> simp [hx, dedupStep]

/-! ### Position lemmas for `finditer` -/

theorem finditerAux_start_ge (r : RE) (t : List Char) :
    ∀ (fuel i : Nat) (m : Nat × Nat), m ∈ finditerAux r t i fuel → i ≤ m.1 := by
  intro fuel
  induction fuel with
  | zero => intro i m h; simp [finditerAux] at h
  | succ fuel ih =>
    intro i m h
    simp only [finditerAux] at h
    by_cases hg : t.length < i
    · simp [hg] at h
    · simp only [hg, if_false] at h
      cases he : matchEnds r t i with
      | nil =>
        rw [he] at h
        exact Nat.le_of_succ_le (ih (i + 1) m h)
      | cons e rest =>
        rw [he] at h
        by_cases hei : e ≤ i
        · simp only [hei, if_true, List.mem_cons] at h
          rcases h with h | h
          · simp [h]
          · exact Nat.le_of_succ_le (ih (i + 1) m h)
        · simp only [hei, if_false, List.mem_cons] at h
          rcases h with h | h
          · simp [h]
          · exact le_trans (Nat.le_of_lt (Nat.lt_of_not_le hei)) (ih e m h)

theorem finditerAux_pairwise (r : RE) (t : List Char) :
    ∀ (fuel i : Nat),
      (finditerAux r t i fuel).Pairwise (fun m1 m2 => m1.1 < m2.1) := by
  intro fuel
  induction fuel with
  | zero => intro i; simp [finditerAux]
  | succ fuel ih =>
    intro i
    simp only [finditerAux]
    by_cases hg : t.length < i
    · simp [hg]
    · simp only [hg, if_false]
      cases he : matchEnds r t i with
      | nil => exact ih (i + 1)
      | cons e rest =>
        by_cases hei : e ≤ i
        · simp only [hei, if_true]
          refine List.Pairwise.cons ?_ (ih (i + 1))
          intro m hm
          exact Nat.lt_of_succ_le (finditerAux_start_ge r t fuel (i + 1) m hm)
        · simp only [hei, if_false]
          refine List.Pairwise.cons ?_ (ih e)
          intro m hm
          exact Nat.lt_of_lt_of_le (Nat.lt_of_not_le hei) (finditerAux_start_ge r t fuel e m hm)

/-- The matches reported by `finditer` have strictly increasing start
positions: within one rule, matches are listed in text order. -/
theorem finditer_starts_increasing (r : RE) (t : List Char) :
    (finditer r t).Pairwise (fun m1 m2 => m1.1 < m2.1) :=
  finditerAux_pairwise r t (t.length + 1) 0

/-! ### Characterising the question matches

The claim describes `extract_questions` output as "the runs of
non-terminator characters ending in `?`".  `questionRuns` below is that
description turned into a direct left-to-right scan; the lemmas then show
that `finditer` on the compiled pattern `[^.!?\n]*\?` produces exactly
those runs. -/

theorem getElem?_drop' {α : Type} : ∀ (l : List α) (n m : Nat), (l.drop n)[m]? = l[n + m]? := by
  intro l
  induction l with
  | nil => intro n m; simp
  | cons c rest ih =>
    intro n m
    cases n with
    | zero => simp
    | succ n =>
      simp only [List.drop_succ_cons, ih n m]
      have h : n + 1 + m = (n + m) + 1 := by omega
      rw [h, List.getElem?_cons_succ]

theorem takeWhile_getElem? {p : Char → Bool} :
    ∀ (l : List Char) (k : Nat), k < (l.takeWhile p).length →
      ∃ c, l[k]? = some c ∧ p c = true := by
  intro l
  induction l with
  | nil => intro k h; simp [List.takeWhile] at h
  | cons c rest ih =>
    intro k h
    by_cases hc : p c
    · cases k with
      | zero => exact ⟨c, by simp, hc⟩
      | succ k =>
        simp only [List.takeWhile_cons, hc, if_true, List.length_cons] at h
        obtain ⟨d, hd, hpd⟩ := ih k (Nat.lt_of_succ_lt_succ h)
        exact ⟨d, by simpa using hd, hpd⟩
    · simp [List.takeWhile_cons, hc] at h

theorem getElem?_after_takeWhile {p : Char → Bool} :
    ∀ (l : List Char) (c : Char), l[(l.takeWhile p).length]? = some c → p c = false := by
  intro l
  induction l with
  | nil => intro c h; simp at h
  | cons d rest ih =>
    intro c h
    by_cases hd : p d
    · simp only [List.takeWhile_cons, hd, if_true, List.length_cons,
        List.getElem?_cons_succ] at h
      exact ih c h
    · rw [List.takeWhile_cons, if_neg hd] at h
      simp only [List.length_nil, List.getElem?_cons_zero, Option.some.injEq] at h
      subst h
      simpa using hd

theorem take_takeWhile_succ {p : Char → Bool} :
    ∀ (l : List Char) (r : Nat) (c : Char), (l.takeWhile p).length = r →
      l[r]? = some c → l.take (r + 1) = l.takeWhile p ++ [c] := by
  intro l
  induction l with
  | nil => intro r c _ h2; simp at h2
  | cons d rest ih =>
    intro r c h1 h2
    by_cases hd : p d
    · simp only [List.takeWhile_cons, hd, if_true, List.length_cons] at h1
      cases r with
      | zero => exact absurd h1 (by simp)
      | succ r =>
        simp only [List.getElem?_cons_succ] at h2
        simp only [List.take_succ_cons, List.takeWhile_cons, hd, if_true, List.cons_append]
        rw [ih r c (Nat.succ_injective h1) h2]
    · rw [List.takeWhile_cons, if_neg hd] at h1
      simp only [List.length_nil] at h1
      subst h1
      simp only [List.getElem?_cons_zero, Option.some.injEq] at h2
      subst h2
      rw [List.takeWhile_cons, if_neg hd]
      rfl

theorem drop_eq_cons_of_getElem? {α : Type} :
    ∀ (l : List α) (n : Nat) (c : α), l[n]? = some c → l.drop n = c :: l.drop (n + 1) := by
  intro l
  induction l with
  | nil => intro n c h; simp at h
  | cons d rest ih =>
    intro n c h
    cases n with
    | zero =>
      simp only [List.getElem?_cons_zero, Option.some.injEq] at h
      subst h
      rfl
    | succ n =>
      simp only [List.getElem?_cons_succ] at h
      simpa using ih n c h

theorem flatMap_nil_of_all {α β : Type} (f : α → List β) :
    ∀ (l : List α), (∀ x ∈ l, f x = []) → l.flatMap f = [] := by
  intro l
  induction l with
  | nil => intro _; rfl
  | cons x xs ih =>
    intro h
    simp only [List.flatMap_cons, h x (List.mem_cons_self x xs), List.nil_append]
    exact ih (fun y hy => h y (List.mem_cons_of_mem x hy))

/-- The question pattern `[^.!?\n]*\?` matches at `i` exactly when the
first non-run character at or after `i` is a `?`, and then in one way:
the whole run plus that `?`. -/
theorem matchEnds_question (t : List Char) (i : Nat) :
    matchEnds questionPattern t i
      = if t[i + runLen notTermB t i]? = some '?'
        then [i + runLen notTermB t i + 1] else [] := by
  have hrange : (List.range (runLen notTermB t i + 1)).reverse
      = runLen notTermB t i :: (List.range (runLen notTermB t i)).reverse := by
    rw [List.range_succ, List.reverse_append]
    rfl
  have hnil : ((List.range (runLen notTermB t i)).reverse.map (fun k => i + k)).flatMap
      (fun j => matchEnds (.cls (fun c => c == '?')) t j) = [] := by
    apply flatMap_nil_of_all
    intro j hj
    simp only [List.mem_map, List.mem_reverse, List.mem_range] at hj
    obtain ⟨k, hk, rfl⟩ := hj
    obtain ⟨c, hc, hpc⟩ := takeWhile_getElem? (t.drop i) k hk
    rw [getElem?_drop'] at hc
    have hq : (c == '?') = false := by
      cases h : c == '?'
      · rfl
      · exfalso
        simp [notTermB, h] at hpc
    simp [matchEnds, hc, hq]
  have h1 : matchEnds questionPattern t i
      = ((List.range (runLen notTermB t i + 1)).reverse.map (fun k => i + k)).flatMap
          (fun j => matchEnds (.cls (fun c => c == '?')) t j) := rfl
  rw [h1, hrange, List.map_cons, List.flatMap_cons, hnil, List.append_nil]
  cases hg : t[i + runLen notTermB t i]? with
  | none => simp [matchEnds, hg]
  | some c =>
    by_cases hc : c = '?'
    · subst hc
      simp [matchEnds, hg]
    · simp [matchEnds, hg, hc]

/-- Modelled from the spec's wording for open questions: scan the text
left to right; a run of non-terminator characters (`.`, `!`, `?` and
newline are terminators) that ends in `?` is emitted (with its `?`);
any other terminator resets the run.  `cur` is the current run reversed. -/
def questionRunsAux : List Char → List Char → List (List Char)
  | [], _ => []
  | c :: rest, cur =>
    if c = '?' then (cur.reverse ++ ['?']) :: questionRunsAux rest []
    else if c = '.' ∨ c = '!' ∨ c = '\n' then questionRunsAux rest []
    else questionRunsAux rest (c :: cur)

/-- The runs of non-terminator characters ending in `?`, in text order. -/
def questionRuns (t : List Char) : List (List Char) :=
  questionRunsAux t []

theorem notTermB_false_elim {c : Char} (h : notTermB c = false) (hq : c ≠ '?') :
    c = '.' ∨ c = '!' ∨ c = '\n' := by
  simp only [notTermB, Bool.not_eq_false', Bool.or_eq_true, beq_iff_eq] at h
  rcases h with ((h | h) | h) | h
  · exact Or.inl h
  · exact Or.inr (Or.inl h)
  · exact absurd h hq
  · exact Or.inr (Or.inr h)

theorem notTermB_true_elim {c : Char} (h : notTermB c = true) :
    c ≠ '?' ∧ ¬(c = '.' ∨ c = '!' ∨ c = '\n') := by
  simp only [notTermB, Bool.not_eq_true', Bool.or_eq_false_iff, beq_eq_false_iff_ne, ne_eq] at h
  exact ⟨h.1.2, by rintro (hc | hc | hc) <;> simp [hc] at h⟩

theorem questionRunsAux_emit :
    ∀ (l cur : List Char), l[(l.takeWhile notTermB).length]? = some '?' →
      questionRunsAux l cur
        = (cur.reverse ++ l.takeWhile notTermB ++ ['?'])
            :: questionRunsAux (l.drop ((l.takeWhile notTermB).length + 1)) [] := by
  intro l
  induction l with
  | nil => intro cur h; simp at h
  | cons c rest ih =>
    intro cur h
    by_cases hq : c = '?'
    · subst hq
      have htw : ('?' :: rest).takeWhile notTermB = [] := by
        rw [List.takeWhile_cons, if_neg (by simp [notTermB])]
      simp [questionRunsAux, htw]
    · by_cases hc : notTermB c
      · have htw : (c :: rest).takeWhile notTermB = c :: rest.takeWhile notTermB := by
          rw [List.takeWhile_cons, if_pos hc]
        rw [htw] at h
        simp only [List.length_cons, List.getElem?_cons_succ] at h
        obtain ⟨hq', hterm⟩ := notTermB_true_elim hc
        rw [questionRunsAux, if_neg hq, if_neg hterm, ih (c :: cur) h, htw]
        simp
      · have hc' : notTermB c = false := by simpa using hc
        have htw : (c :: rest).takeWhile notTermB = [] := by
          rw [List.takeWhile_cons, if_neg (by simp [hc'])]
        rw [htw] at h
        simp only [List.length_nil, List.getElem?_cons_zero, Option.some.injEq] at h
        exact absurd h hq

theorem questionRunsAux_cur_irrel :
    ∀ (l : List Char),
      (∀ c, l[(l.takeWhile notTermB).length]? = some c → c ≠ '?') →
      ∀ (cur₁ cur₂ : List Char), questionRunsAux l cur₁ = questionRunsAux l cur₂ := by
  intro l
  induction l with
  | nil => intro _ cur₁ cur₂; rfl
  | cons c rest ih =>
    intro h cur₁ cur₂
    by_cases hq : c = '?'
    · subst hq
      have htw : ('?' :: rest).takeWhile notTermB = [] := by
        rw [List.takeWhile_cons, if_neg (by simp [notTermB])]
      rw [htw] at h
      exact absurd rfl (h '?' (by simp))
    · by_cases hc : notTermB c
      · have htw : (c :: rest).takeWhile notTermB = c :: rest.takeWhile notTermB := by
          rw [List.takeWhile_cons, if_pos hc]
        rw [htw] at h
        simp only [List.length_cons, List.getElem?_cons_succ] at h
        obtain ⟨hq', hterm⟩ := notTermB_true_elim hc
        rw [questionRunsAux, if_neg hq, if_neg hterm,
          questionRunsAux, if_neg hq, if_neg hterm]
        exact ih h (c :: cur₁) (c :: cur₂)
      · have hc' : notTermB c = false := by simpa using hc
        have hterm := notTermB_false_elim hc' hq
        rw [questionRunsAux, if_neg hq, if_pos hterm,
          questionRunsAux, if_neg hq, if_pos hterm]

theorem finditerAux_question (t : List Char) :
    ∀ (fuel i : Nat), t.length + 1 ≤ i + fuel →
      (finditerAux questionPattern t i fuel).map (fun m => sliceL t m)
        = questionRunsAux (t.drop i) [] := by
  intro fuel
  induction fuel with
  | zero =>
    intro i hfuel
    have hi : t.length ≤ i := by omega
    rw [List.drop_of_length_le hi]
    simp [finditerAux, questionRunsAux]
  | succ fuel ih =>
    intro i hfuel
    by_cases hg : t.length < i
    · rw [List.drop_of_length_le (Nat.le_of_lt hg)]
      simp [finditerAux, hg, questionRunsAux]
    · rw [finditerAux, if_neg hg, matchEnds_question]
      cases hq : t[i + runLen notTermB t i]? with
      | some c =>
        by_cases hc : c = '?'
        · subst hc
          rw [if_pos rfl]
          dsimp only
          have hlt : ¬ (i + runLen notTermB t i + 1 ≤ i) := by omega
          rw [if_neg hlt]
          have hlen : i + runLen notTermB t i < t.length := by
            by_contra hcon
            rw [List.getElem?_eq_none (by omega)] at hq
            cases hq
          have hih := ih (i + runLen notTermB t i + 1) (by omega)
          simp only [List.map_cons, hih]
          have hq' : (t.drop i)[((t.drop i).takeWhile notTermB).length]? = some '?' := by
            rw [getElem?_drop']
            exact hq
          rw [questionRunsAux_emit (t.drop i) [] hq']
          have hslice : sliceL t (i, i + runLen notTermB t i + 1)
              = (t.drop i).takeWhile notTermB ++ ['?'] := by
            have h1 : i + runLen notTermB t i + 1 - i = runLen notTermB t i + 1 := by omega
            rw [sliceL, h1]
            exact take_takeWhile_succ (t.drop i) (runLen notTermB t i) '?' rfl
              (by rw [getElem?_drop']; exact hq)
          have hdrop : (t.drop i).drop (((t.drop i).takeWhile notTermB).length + 1)
              = t.drop (i + runLen notTermB t i + 1) := by
            rw [List.drop_drop]
            have h2 : i + (((t.drop i).takeWhile notTermB).length + 1)
                = i + runLen notTermB t i + 1 := by
              simp only [runLen]
              omega
            rw [h2]
          rw [hslice, hdrop]
          simp [runLen]
        · rw [if_neg (by simp [hc])]
          dsimp only
          have hih := ih (i + 1) (by omega)
          rw [hih]
          cases hi0 : t[i]? with
          | none =>
            have hlen : t.length ≤ i := by
              by_contra hcon
              rw [List.getElem?_eq_getElem (by omega)] at hi0
              cases hi0
            rw [List.drop_of_length_le hlen, List.drop_of_length_le (by omega)]
          | some c0 =>
            rw [drop_eq_cons_of_getElem? t i c0 hi0]
            by_cases hc0 : notTermB c0
            · obtain ⟨hq0, hterm0⟩ := notTermB_true_elim hc0
              rw [questionRunsAux, if_neg hq0, if_neg hterm0]
              apply questionRunsAux_cur_irrel
              intro d hd hd'
              subst hd'
              have htw : (t.drop i).takeWhile notTermB
                  = c0 :: (t.drop (i + 1)).takeWhile notTermB := by
                rw [drop_eq_cons_of_getElem? t i c0 hi0, List.takeWhile_cons, if_pos hc0]
              have hrl : runLen notTermB t i = ((t.drop (i + 1)).takeWhile notTermB).length + 1 := by
                rw [runLen, htw, List.length_cons]
              rw [getElem?_drop'] at hd
              rw [hrl] at hq
              have h3 : i + 1 + ((t.drop (i + 1)).takeWhile notTermB).length
                  = i + (((t.drop (i + 1)).takeWhile notTermB).length + 1) := by omega
              rw [h3] at hd
              rw [hd] at hq
              exact hc (Option.some.injEq _ _ ▸ hq.symm ▸ rfl)
            · have hc0' : notTermB c0 = false := by simpa using hc0
              have hr0 : runLen notTermB t i = 0 := by
                rw [runLen, drop_eq_cons_of_getElem? t i c0 hi0, List.takeWhile_cons,
                  if_neg (by simp [hc0'])]
                rfl
              have hq0 : c0 ≠ '?' := by
                intro hcon
                subst hcon
                rw [hr0] at hq
                simp only [Nat.add_zero] at hq
                rw [hi0] at hq
                cases hq
                exact hc rfl
              have hterm0 := notTermB_false_elim hc0' hq0
              rw [questionRunsAux, if_neg hq0, if_pos hterm0]
      | none =>
        rw [if_neg (by simp)]
        dsimp only
        have hih := ih (i + 1) (by omega)
        rw [hih]
        cases hi0 : t[i]? with
        | none =>
          have hlen : t.length ≤ i := by
            by_contra hcon
            rw [List.getElem?_eq_getElem (by omega)] at hi0
            cases hi0
          rw [List.drop_of_length_le hlen, List.drop_of_length_le (by omega)]
        | some c0 =>
          rw [drop_eq_cons_of_getElem? t i c0 hi0]
          by_cases hc0 : notTermB c0
          · obtain ⟨hq0, hterm0⟩ := notTermB_true_elim hc0
            rw [questionRunsAux, if_neg hq0, if_neg hterm0]
            apply questionRunsAux_cur_irrel
            intro d hd hd'
            subst hd'
            have htw : (t.drop i).takeWhile notTermB
                = c0 :: (t.drop (i + 1)).takeWhile notTermB := by
              rw [drop_eq_cons_of_getElem? t i c0 hi0, List.takeWhile_cons, if_pos hc0]
            have hrl : runLen notTermB t i = ((t.drop (i + 1)).takeWhile notTermB).length + 1 := by
              rw [runLen, htw, List.length_cons]
            rw [getElem?_drop'] at hd
            rw [hrl] at hq
            have h3 : i + 1 + ((t.drop (i + 1)).takeWhile notTermB).length
                = i + (((t.drop (i + 1)).takeWhile notTermB).length + 1) := by omega
            rw [h3] at hd
            rw [hd] at hq
            cases hq
          · have hc0' : notTermB c0 = false := by simpa using hc0
            have hr0 : runLen notTermB t i = 0 := by
              rw [runLen, drop_eq_cons_of_getElem? t i c0 hi0, List.takeWhile_cons,
                if_neg (by simp [hc0'])]
              rfl
            have hq0 : c0 ≠ '?' := by
              intro hcon
              rw [hr0] at hq
              simp only [Nat.add_zero] at hq
              rw [hi0] at hq
              cases hq
            have hterm0 := notTermB_false_elim hc0' hq0
            rw [questionRunsAux, if_neg hq0, if_pos hterm0]

/-- The question-pattern matches in a text are exactly its runs of
non-terminator characters ending in `?`. -/
theorem finditer_question_eq (t : List Char) :
    (finditer questionPattern t).map (fun m => sliceL t m) = questionRuns t := by
  have h := finditerAux_question t (t.length + 1) 0 (by omega)
  simpa [finditer, questionRuns] using h

/-! ### Sorting lemmas: descending order, stability, membership -/

theorem mem_insertDesc (x z : List Char × ℚ) :
    ∀ (l : List (List Char × ℚ)), z ∈ insertDesc x l ↔ z = x ∨ z ∈ l := by
  intro l
  induction l with
  | nil => simp [insertDesc]
  | cons y ys ih =>
    by_cases h : y.2 ≤ x.2
    · simp [insertDesc, h]
    · simp only [insertDesc, h, if_false, List.mem_cons, ih]
      tauto

theorem insertDesc_pairwise (x : List Char × ℚ) :
    ∀ (l : List (List Char × ℚ)), l.Pairwise (fun a b => b.2 ≤ a.2) →
      (insertDesc x l).Pairwise (fun a b => b.2 ≤ a.2) := by
  intro l
  induction l with
  | nil => intro _; simp [insertDesc]
  | cons y ys ih =>
    intro h
    rw [List.pairwise_cons] at h
    by_cases hle : y.2 ≤ x.2
    · rw [insertDesc, if_pos hle]
      refine List.Pairwise.cons ?_ (List.Pairwise.cons h.1 h.2)
      intro z hz
      rcases List.mem_cons.mp hz with rfl | hz
      · exact hle
      · exact le_trans (h.1 z hz) hle
    · rw [insertDesc, if_neg hle]
      refine List.Pairwise.cons ?_ (ih h.2)
      intro z hz
      rcases (mem_insertDesc x z ys).mp hz with rfl | hz
      · exact le_of_lt (lt_of_not_le hle)
      · exact h.1 z hz

theorem pySortDesc_pairwise :
    ∀ (l : List (List Char × ℚ)), (pySortDesc l).Pairwise (fun a b => b.2 ≤ a.2) := by
  intro l
  induction l with
  | nil => simp [pySortDesc]
  | cons x xs ih => exact insertDesc_pairwise x (pySortDesc xs) ih

theorem mem_pySortDesc (z : List Char × ℚ) :
    ∀ (l : List (List Char × ℚ)), z ∈ pySortDesc l ↔ z ∈ l := by
  intro l
  induction l with
  | nil => simp [pySortDesc]
  | cons x xs ih =>
    simp only [pySortDesc, mem_insertDesc, ih, List.mem_cons]

theorem insertDesc_filter_eq (x : List Char × ℚ) (q : ℚ) :
    ∀ (l : List (List Char × ℚ)),
      (insertDesc x l).filter (fun c => decide (c.2 = q))
        = if x.2 = q then x :: l.filter (fun c => decide (c.2 = q))
          else l.filter (fun c => decide (c.2 = q)) := by
  intro l
  induction l with
  | nil =>
    by_cases hx : x.2 = q <;> simp [insertDesc, hx]
  | cons y ys ih =>
    by_cases hle : y.2 ≤ x.2
    · rw [insertDesc, if_pos hle]
      by_cases hx : x.2 = q <;> simp [hx]
    · rw [insertDesc, if_neg hle]
      by_cases hy : y.2 = q
      · have hx : ¬ x.2 = q := by
          intro hcon
          exact hle (le_of_eq (hy.trans hcon.symm))
        simp [List.filter_cons, hy, ih, hx]
      · simp [List.filter_cons, hy, ih]

theorem pySortDesc_filter_eq (q : ℚ) :
    ∀ (l : List (List Char × ℚ)),
      (pySortDesc l).filter (fun c => decide (c.2 = q))
        = l.filter (fun c => decide (c.2 = q)) := by
  intro l
  induction l with
  | nil => simp [pySortDesc]
  | cons x xs ih =>
    rw [pySortDesc, insertDesc_filter_eq x q (pySortDesc xs), ih]
    by_cases hx : x.2 = q <;> simp [List.filter_cons, hx]

theorem pySliceTo_length_le (n : Int) (hn : 0 ≤ n) (l : List (List Char × ℚ)) :
    ((pySliceTo n l).length : Int) ≤ n := by
  rw [pySliceTo, if_pos hn]
  have h := List.length_take_le n.toNat l
  omega

theorem mem_pySliceTo (z : List Char × ℚ) (n : Int) (l : List (List Char × ℚ)) :
    z ∈ pySliceTo n l → z ∈ l := by
  intro h
  exact List.mem_of_mem_take h

/-! ### Claim statements -/

/-- Position of the first occurrence of `needle` as a contiguous substring
of the remaining text (used to state textual-occurrence order). -/
def firstPosAux (needle : List Char) : List Char → Nat → Option Nat
  | [], i => if needle = [] then some i else none
  | c :: rest, i =>
    if listStartsWith needle (c :: rest) then some i else firstPosAux needle rest (i + 1)

/-- Index of the first textual occurrence of `needle` in `hay`. -/
def firstPos (needle hay : List Char) : Option Nat := firstPosAux needle hay 0

/-- Modelled from the claim's wording (with the marker set the code
actually uses): the open questions are the runs of non-terminator
characters ending in `?`, trimmed, kept when longer than 5 characters,
then with one leading list-marker character (`-`, `*`, or the mojibake
bullet characters `â`, `€`, `¢`) stripped, deduplicated keeping first
occurrences. -/
def spec_open_questions (t : List Char) : List (List Char) :=
  firstDedup
    ((((questionRuns t).map pyStrip).filter
        (fun q => decide (q ≠ [] ∧ 5 < q.length))).map stripBullet)

/-- C1, counterexample: with `max_chunks = -1` (which is `≤ 0`), the call
`trim_context("a b. c b.", "b.", -1)` returns one chunk, not an empty
result, because the Python slice `[:-1]` drops only the last entry; the
returned length `1` also violates `len(selected_chunks) <= max_chunks`. -/
theorem trim_context_c1_cex :
    trim_context ⟨strL "a b. c b.", strL "b.", some (.vint (-1))⟩
        = .ok [(strL "a b.", 1)]
      ∧ [(strL "a b.", (1 : ℚ))] ≠ []
      ∧ ¬ (([(strL "a b.", (1 : ℚ))].length : Int) ≤ -1) := by
  refine ⟨by decide, by decide, by decide⟩

/-- C1, amended: for every coerced `max_chunks` value `n ≥ 0`, the result
of `trim_context` has at most `n` chunks, and `n = 0` yields an empty
result (the slice `[:n]` keeps the first `n` entries only when `n ≥ 0`;
a negative `n` instead drops the last `|n|` entries). -/
theorem trim_context_bounded_of_nonneg (text goal : List Char) (mc : Option ArgVal) (n : Int)
    (hv : pyInt (mc.getD (.vint 5)) = .ok n) (hn : 0 ≤ n) (r : List (List Char × ℚ))
    (hr : trim_context ⟨text, goal, mc⟩ = .ok r) :
    (r.length : Int) ≤ n ∧ (n = 0 → r = []) := by
  simp only [trim_context, hv] at hr
  by_cases he : text = [] ∨ goal = []
  · rw [if_pos he] at hr
    simp only [Except.ok.injEq] at hr
    subst hr
    exact ⟨by simpa using hn, fun _ => rfl⟩
  · rw [if_neg he] at hr
    simp only [Except.ok.injEq] at hr
    subst hr
    refine ⟨pySliceTo_length_le n hn _, ?_⟩
    intro h0
    subst h0
    simp [pySliceTo]

theorem trim_context_bounded_witness :
    pyInt ((some (ArgVal.vint 2)).getD (.vint 2)) = .ok 2
      ∧ (([(strL "a b.", (1 : ℚ))].length : Int) ≤ 2
          ∧ ((2 : Int) = 0 → [(strL "a b.", (1 : ℚ))] = [])) :=
  ⟨by decide,
   trim_context_bounded_of_nonneg (strL "a b.") (strL "b.") (some (.vint 2)) 2
     (by decide) (by decide) _ (by decide)⟩

/-- C2, counterexample: in
`"Decision: use X. We decided to ship now."` the string matched by the
`decision:`-label rule occurs first in the text (position 0) but is
stored second, because the actor-verb rule is applied first; so stored
strings are not in order of first textual occurrence. -/
theorem extract_decisions_order_cex :
    extract_decisions (strL "Decision: use X. We decided to ship now.")
        = [strL "We decided to ship now.", strL "Decision: use X."]
      ∧ firstPos (strL "Decision: use X.")
          (strL "Decision: use X. We decided to ship now.") = some 0
      ∧ firstPos (strL "We decided to ship now.")
          (strL "Decision: use X. We decided to ship now.") = some 17
      ∧ (0 : Nat) < 17 := by
  refine ⟨by decide, by decide, by decide, by decide⟩

/-- C2, amended: the stored strings appear in rule-major order — rules in
their listed order and, within one rule, matches in order of textual
occurrence (`finditer` reports strictly increasing start positions); a
string matched by two different rules appears once, at the position of
its first match in that rule-major scan (not necessarily at its first
textual occurrence).  Each category is the insertion-ordered
deduplication of its rule-major match list. -/
theorem extract_outcomes_rule_major_order (t : List Char) :
    extract_decisions t = firstDedup (ruleMajorMatches decisionPatterns t)
      ∧ extract_action_items t = firstDedup (ruleMajorMatches actionPatterns t)
      ∧ ∀ (p : RE), (finditer p t).Pairwise (fun m1 m2 => m1.1 < m2.1) :=
  ⟨extract_decisions_eq t, extract_action_items_eq t,
   fun p => finditer_starts_increasing p t⟩

/-- C3: a present `max_chunks` value that `int()` cannot coerce makes the
call raise that error (a `ValueError`/`TypeError`, Python's
invalid-argument classes) instead of returning any result. -/
theorem trim_context_invalid_max_chunks_raises (text goal : List Char) (v : ArgVal)
    (e : PyError) (h : pyInt v = .error e) :
    trim_context ⟨text, goal, some v⟩ = .error e
      ∧ ∀ r, trim_context ⟨text, goal, some v⟩ ≠ .ok r := by
  have h1 : trim_context ⟨text, goal, some v⟩ = .error e := by
    simp only [trim_context, Option.getD_some, h]
  exact ⟨h1, fun r hcon => by rw [h1] at hcon; cases hcon⟩

theorem trim_context_invalid_max_chunks_witness :
    pyInt (.vstr (strL "five")) = .error .valueError
      ∧ trim_context ⟨strL "text.", strL "goal", some (.vstr (strL "five"))⟩
          = .error .valueError :=
  ⟨by decide,
   (trim_context_invalid_max_chunks_raises (strL "text.") (strL "goal")
     (.vstr (strL "five")) .valueError (by decide)).1⟩

/-- C4, counterexample: for the input `"• Should we refactor this?"` the
stored question keeps its leading bullet `•`, because the source's
marker class contains the mojibake characters `â`, `€`, `¢` rather than
the bullet character itself; the claim's "leading list-marker glyph
stripped" fails for `•`. -/
theorem extract_questions_bullet_cex :
    extract_questions (strL "• Should we refactor this?")
        = [strL "• Should we refactor this?"]
      ∧ (strL "• Should we refactor this?").head? = some '•'
      ∧ strL "• Should we refactor this?" ≠ strL "Should we refactor this?" := by
  refine ⟨by decide, by decide, by decide⟩

/-- C4, amended: for every text, the open questions are exactly the runs
of non-terminator characters ending in `?`, trimmed, kept when longer
than 5 characters, with one leading `-`, `*`, `â`, `€` or `¢` (the
marker characters the code strips) removed, deduplicated by exact string
keeping first occurrences. -/
theorem extract_questions_characterised (t : List Char) :
    extract_questions t = spec_open_questions t := by
  have h : (finditer questionPattern t).map (fun m => pyStrip (sliceL t m))
      = (questionRuns t).map pyStrip := by
    rw [← finditer_question_eq t, List.map_map]
    rfl
  rw [extract_questions_eq, h, spec_open_questions]

/-- The Python token set `set(s.lower().split())` as a `Finset`. -/
def pyTokens (s : List Char) : Finset (List Char) :=
  (pySplitWords (lowerL s)).toFinset

/-- C5: the relevance score is `|goal ∩ sentence| / |goal|` on the
lowercased whitespace-token sets (`0` for an empty goal set), hence lies
in `[0, 1]` and is `0` whenever the goal has no tokens or shares none
with the sentence. -/
theorem calculate_relevance_score_spec (chunk goal : List Char) :
    (0 : ℚ) ≤ calculate_relevance_score chunk goal
      ∧ calculate_relevance_score chunk goal ≤ 1
      ∧ calculate_relevance_score chunk goal
          = (if pyTokens goal = ∅ then 0
             else ((pyTokens goal ∩ pyTokens chunk).card : ℚ) / ((pyTokens goal).card : ℚ))
      ∧ ((pyTokens goal = ∅ ∨ pyTokens goal ∩ pyTokens chunk = ∅) →
          calculate_relevance_score chunk goal = 0) := by
  have hG : (pyTokens goal).card = ((pySplitWords (lowerL goal)).dedup).length :=
    List.card_toFinset _
  have hGe : pyTokens goal = ∅ ↔ (pySplitWords (lowerL goal)).dedup = [] := by
    rw [pyTokens, List.toFinset_eq_empty_iff]
    exact (List.dedup_eq_nil _).symm
  have hI : (pyTokens goal ∩ pyTokens chunk).card
      = (((pySplitWords (lowerL goal)).dedup).filter
          (fun w => decide (w ∈ (pySplitWords (lowerL chunk)).dedup))).length := by
    have hnd : (((pySplitWords (lowerL goal)).dedup).filter
        (fun w => decide (w ∈ (pySplitWords (lowerL chunk)).dedup))).Nodup :=
      (List.nodup_dedup _).filter _
    rw [← List.toFinset_card_of_nodup hnd]
    congr 1
    ext x
    simp [pyTokens, List.mem_filter]
  by_cases hge : (pySplitWords (lowerL goal)).dedup = []
  · have hscore : calculate_relevance_score chunk goal = 0 := by
      rw [calculate_relevance_score]
      simp [hge]
    rw [hscore]
    refine ⟨le_refl 0, by norm_num, ?_, fun _ => rfl⟩
    rw [if_pos (hGe.mpr hge)]
  · have hpos : 0 < ((pySplitWords (lowerL goal)).dedup).length :=
      List.length_pos.mpr hge
    have hscore : calculate_relevance_score chunk goal
        = ((((pySplitWords (lowerL goal)).dedup).filter
              (fun w => decide (w ∈ (pySplitWords (lowerL chunk)).dedup))).length : ℚ)
            / (((pySplitWords (lowerL goal)).dedup).length : ℚ) := by
      rw [calculate_relevance_score]
      simp only [hge, if_false]
      rw [Rat.mkRat_eq_div]
      norm_num
    have hle : (((pySplitWords (lowerL goal)).dedup).filter
        (fun w => decide (w ∈ (pySplitWords (lowerL chunk)).dedup))).length
          ≤ ((pySplitWords (lowerL goal)).dedup).length :=
      List.length_filter_le _ _
    have hden : (0 : ℚ) < (((pySplitWords (lowerL goal)).dedup).length : ℚ) := by
      exact_mod_cast hpos
    refine ⟨?_, ?_, ?_, ?_⟩
    · rw [hscore]
      positivity
    · rw [hscore]
      rw [div_le_one hden]
      exact_mod_cast hle
    · rw [if_neg (fun hcon => hge (hGe.mp hcon)), hscore, hI, hG]
    · rintro (hcon | hcon)
      · exact absurd (hGe.mp hcon) hge
      · rw [hscore]
        have : (((pySplitWords (lowerL goal)).dedup).filter
            (fun w => decide (w ∈ (pySplitWords (lowerL chunk)).dedup))).length = 0 := by
          rw [← hI, hcon]
          rfl
        rw [this]
        norm_num

theorem calculate_relevance_score_spec_witness :
    (pyTokens (strL "") = ∅ ∨ pyTokens (strL "") ∩ pyTokens (strL "abc") = ∅)
      ∧ calculate_relevance_score (strL "abc") (strL "") = 0 :=
  ⟨Or.inl (by decide),
   (calculate_relevance_score_spec (strL "abc") (strL "")).2.2.2 (Or.inl (by decide))⟩

/-- C6: `extract_outcomes` on empty text returns three empty lists, and
`trim_context` with an empty text or an empty goal returns an empty
selection without raising, for any absent or coercible `max_chunks`
(a non-coercible `max_chunks` raises first, see the claim about coercion
order). -/
theorem empty_input_contract :
    extract_outcomes [] = ⟨[], [], []⟩
      ∧ ∀ (text goal : List Char) (mc : Option ArgVal) (n : Int),
          pyInt (mc.getD (.vint 5)) = .ok n →
          (text = [] ∨ goal = []) →
          trim_context ⟨text, goal, mc⟩ = .ok [] := by
  refine ⟨rfl, ?_⟩
  intro text goal mc n hn he
  simp only [trim_context, hn]
  rw [if_pos he]

theorem empty_input_contract_witness :
    pyInt ((none : Option ArgVal).getD (.vint 5)) = .ok 5
      ∧ trim_context ⟨[], strL "goal", none⟩ = .ok []
      ∧ trim_context ⟨strL "some text.", [], none⟩ = .ok [] :=
  ⟨by decide,
   empty_input_contract.2 [] (strL "goal") none 5 (by decide) (Or.inl rfl),
   empty_input_contract.2 (strL "some text.") [] none 5 (by decide) (Or.inr rfl)⟩

/-- C7: the scored non-filler chunks, listed in original text order by
`chunksWithScores`, are sorted by strictly descending-or-equal score, and
the sort is stable: for every score value, the selected-order sublist at
that score equals the text-order sublist at that score; both properties
also hold of every truncated prefix (the selected chunks). -/
theorem trim_context_sort_stable (text goal : List Char) (n : Nat) (q : ℚ) :
    (pySortDesc (chunksWithScores text goal)).Pairwise (fun a b => b.2 ≤ a.2)
      ∧ (pySortDesc (chunksWithScores text goal)).filter (fun c => decide (c.2 = q))
          = (chunksWithScores text goal).filter (fun c => decide (c.2 = q))
      ∧ ((pySortDesc (chunksWithScores text goal)).take n).Pairwise (fun a b => b.2 ≤ a.2)
      ∧ ((pySortDesc (chunksWithScores text goal)).take n).filter (fun c => decide (c.2 = q))
          ++ ((pySortDesc (chunksWithScores text goal)).drop n).filter (fun c => decide (c.2 = q))
          = (chunksWithScores text goal).filter (fun c => decide (c.2 = q)) := by
  refine ⟨pySortDesc_pairwise _, pySortDesc_filter_eq q _, ?_, ?_⟩
  · exact (pySortDesc_pairwise _).sublist (List.take_sublist n _)
  · rw [← List.filter_append, List.take_append_drop]
    exact pySortDesc_filter_eq q _

/-- C8: no string appears twice within any one category list of an
`extract_outcomes` result. -/
theorem extract_outcomes_dedup (text : List Char) :
    (extract_outcomes text).decisions.Nodup
      ∧ (extract_outcomes text).action_items.Nodup
      ∧ (extract_outcomes text).open_questions.Nodup := by
  by_cases h : text = []
  · simp [extract_outcomes, h]
  · rw [extract_outcomes, if_neg h]
    refine ⟨?_, ?_, ?_⟩
    · rw [extract_decisions_eq]
      exact firstDedup_nodup _
    · rw [extract_action_items_eq]
      exact firstDedup_nodup _
    · rw [extract_questions_eq]
      exact firstDedup_nodup _

/-- C9: `max_chunks` is coerced before the empty-input test, so a present
non-coercible `max_chunks` raises even when the text or the goal is
empty, and such calls never produce the documented empty result. -/
theorem max_chunks_coerced_before_empty_check (text goal : List Char) (v : ArgVal)
    (e : PyError) (hv : pyInt v = .error e) (_he : text = [] ∨ goal = []) :
    trim_context ⟨text, goal, some v⟩ = .error e
      ∧ trim_context ⟨text, goal, some v⟩ ≠ .ok [] := by
  have h1 : trim_context ⟨text, goal, some v⟩ = .error e := by
    simp only [trim_context, Option.getD_some, hv]
  exact ⟨h1, fun hcon => by rw [h1] at hcon; cases hcon⟩

theorem max_chunks_coerced_before_empty_check_witness :
    pyInt (.vstr (strL "nope")) = .error .valueError
      ∧ ([] = ([] : List Char) ∨ strL "goal" = [])
      ∧ trim_context ⟨[], strL "goal", some (.vstr (strL "nope"))⟩ = .error .valueError :=
  ⟨by decide, Or.inl rfl,
   (max_chunks_coerced_before_empty_check [] (strL "goal") (.vstr (strL "nope"))
     .valueError (by decide) (Or.inl rfl)).1⟩

/-- C10: filler lead-ins are matched as raw character prefixes of the
lowercased stripped sentence, with no word-boundary check — any sentence
starting with such characters (for instance a sentence starting with
"High", whose lowercase starts with "hi") is classified as filler, and a
filler sentence never appears among the selected chunks of any
`trim_context` result. -/
theorem filler_prefix_excluded (s : List Char)
    (h : ∃ p ∈ fillerLeadIns, listStartsWith p (pyStrip (lowerL s)) = true) :
    is_filler_sentence s = true
      ∧ ∀ (args : TrimArgs) (r : List (List Char × ℚ)) (q : ℚ),
          trim_context args = .ok r → (s, q) ∉ r := by
  have h1 : is_filler_sentence s = true := by
    rw [is_filler_sentence, List.any_eq_true]
    obtain ⟨p, hp, hsw⟩ := h
    exact ⟨p, hp, hsw⟩
  refine ⟨h1, ?_⟩
  intro args r q hr hmem
  rcases hv : pyInt (args.maxChunks.getD (.vint 5)) with e | n
  · simp only [trim_context, hv] at hr
    cases hr
  · simp only [trim_context, hv] at hr
    by_cases he : args.text = [] ∨ args.goal = []
    · rw [if_pos he] at hr
      simp only [Except.ok.injEq] at hr
      subst hr
      cases hmem
    · rw [if_neg he] at hr
      simp only [Except.ok.injEq] at hr
      subst hr
      have hm1 := mem_pySliceTo _ _ _ hmem
      rw [mem_pySortDesc] at hm1
      simp only [chunksWithScores, List.mem_filter, List.mem_map] at hm1
      obtain ⟨⟨s', hs', heq⟩, _⟩ := hm1
      have hss : s' = s := congrArg Prod.fst heq
      subst hss
      have hnf := hs'.2
      rw [h1] at hnf
      cases hnf

theorem filler_prefix_excluded_witness :
    (∃ p ∈ fillerLeadIns,
        listStartsWith p (pyStrip (lowerL (strL "High throughput is key."))) = true)
      ∧ is_filler_sentence (strL "High throughput is key.") = true :=
  ⟨by decide, (filler_prefix_excluded (strL "High throughput is key.") (by decide)).1⟩
